import Mathlib

/-!
Verification of the PitchTrack vocal pitch post-processing pipeline

Shallow embedding of the pitch post-processing pipeline that appears (nearly
verbatim) in `prototype/src/vocal_pitch_detector.py` (`detect_vocal_pitch`)
and `pitch_track.py` (`VocalProcessingThread.run`): frame-energy estimation,
confidence synthesis, confidence gating, single-pass octave-jump correction,
and segment-aware median smoothing.  Floating-point values are modelled as
real numbers; fallible external calls (audio decode, the pYIN estimator,
`scipy.signal.medfilt`'s odd-kernel validation) are modelled with
`Except`/`Option`.
-/

open List

namespace PitchTrack

/-! Section: Frame energy estimator

`energy = librosa.feature.rms(y=y, frame_length=hop_length*2, hop_length=hop_length)[0]`
followed by `energy = energy / np.max(energy) if np.max(energy) > 0 else energy`.
The RMS of each analysis frame is the square root of the mean of the squared
samples in a window of `2*hop` samples advancing by `hop` (librosa's
edge-centering is immaterial to the claims and omitted: every window is a
contiguous slice of the waveform). -/

/-- One RMS value: root of the mean square of the `2*hop`-sample window
starting at sample `i*hop`. -/
noncomputable def rmsAt (y : List ℝ) (hop i : ℕ) : ℝ :=
  Real.sqrt ((((y.drop (i * hop)).take (2 * hop)).map (fun s => s ^ 2)).sum / (2 * hop))

/-- The per-frame RMS energy signal (`librosa.feature.rms`), one value per
analysis frame on the same hop grid as the pitch estimator. -/
noncomputable def rmsFrames (y : List ℝ) (hop : ℕ) : List ℝ :=
  (List.range (y.length / hop + 1)).map (rmsAt y hop)

/-- `energy = energy / np.max(energy) if np.max(energy) > 0 else energy` -/
noncomputable def normalizeEnergy (e : List ℝ) : List ℝ :=
  if 0 < e.foldr max 0 then e.map (fun x => x / e.foldr max 0) else e

/-! Section: Confidence synthesizer

```
if voiced_flag[i] and f0[i] > 0:
    confidence[i] = voiced_probs[i] * (0.5 + 0.5 * energy[i])
else:
    confidence[i] = 0
```
-/

/-- Confidence of a single frame. -/
noncomputable def confidenceAt (vf : Bool) (f0 vp en : ℝ) : ℝ :=
  if vf = true ∧ 0 < f0 then vp * (0.5 + 0.5 * en) else 0

/-- The confidence array, built frame by frame from the four parallel inputs. -/
noncomputable def confList : List Bool → List ℝ → List ℝ → List ℝ → List ℝ
  | vf :: vfs, f :: fs, p :: ps, e :: es =>
      confidenceAt vf f p e :: confList vfs fs ps es
  | _, _, _, _ => []

/-! Section: Confidence gating

```
if confidence[i] > energy_threshold and f0[i] > 0:
    processed_pitch[i] = f0[i]
else:
    processed_pitch[i] = 0
```
-/

/-- The gated pitch array (`processed_pitch` just after thresholding). -/
noncomputable def threshList (thr : ℝ) : List ℝ → List ℝ → List ℝ
  | f :: fs, c :: cs => (if thr < c ∧ 0 < f then f else 0) :: threshList thr fs cs
  | _, _ => []

/-! Section: Octave-jump corrector

```
for i in range(1, len(processed_pitch)):
    if processed_pitch[i] > 0 and processed_pitch[i-1] > 0:
        octave_diff = np.abs(np.log2(processed_pitch[i] / processed_pitch[i-1]))
        if octave_diff > continuity_tolerance:
            if abs(octave_diff - 1.0) < 0.1:
                if confidence[i] < confidence[i-1] * (1 + octave_cost):
                    if processed_pitch[i] > processed_pitch[i-1]:
                        processed_pitch[i] = processed_pitch[i] / 2.0
                    else:
                        processed_pitch[i] = processed_pitch[i] * 2.0
```
The loop is sequential: the corrected value of frame `i` is the one compared
against at frame `i+1`, so the embedding carries the previous corrected pitch
and the previous confidence through the recursion.
-/

/-- `octave_diff = np.abs(np.log2(processed_pitch[i] / processed_pitch[i-1]))` -/
noncomputable def octaveDiff (prevP curP : ℝ) : ℝ :=
  |Real.logb 2 (curP / prevP)|

/-- One iteration of the correction loop: the (possibly corrected) value of
the current frame, given the previous frame's corrected pitch and both
confidences. -/
noncomputable def correctFrame (tol cost prevP prevC curP curC : ℝ) : ℝ :=
  if 0 < curP ∧ 0 < prevP then
    if tol < octaveDiff prevP curP then
      if |octaveDiff prevP curP - 1| < 0.1 then
        if curC < prevC * (1 + cost) then
          if prevP < curP then curP / 2 else curP * 2
        else curP
      else curP
    else curP
  else curP

/-- The correction loop over frames `1 … N-1`, carrying the previous
corrected pitch and previous confidence. -/
noncomputable def octCorrGo (tol cost : ℝ) : ℝ → ℝ → List (ℝ × ℝ) → List ℝ
  | _, _, [] => []
  | prevP, prevC, (p, c) :: rest =>
      correctFrame tol cost prevP prevC p c ::
        octCorrGo tol cost (correctFrame tol cost prevP prevC p c) c rest

/-- The octave-jump corrector: frame 0 is never touched (the loop starts at
`i = 1`); later frames are corrected sequentially. -/
noncomputable def octaveCorrect (tol cost : ℝ) (pitch conf : List ℝ) : List ℝ :=
  match pitch.zip conf with
  | [] => []
  | (p, c) :: rest => p :: octCorrGo tol cost p c rest

/-! Section: Segment finding

```
segments = []
segment_start = None
for i in range(len(valid_indices)):
    if valid_indices[i] and segment_start is None:
        segment_start = i
    elif not valid_indices[i] and segment_start is not None:
        segments.append((segment_start, i))
        segment_start = None
if segment_start is not None:
    segments.append((segment_start, len(valid_indices)))
```
with `valid_indices = processed_pitch > 0`.
-/

/-- The segment-finding loop: `n` is the index of the next frame, the
`Option ℕ` is `segment_start`. -/
noncomputable def findSegmentsAux : List ℝ → ℕ → Option ℕ → List (ℕ × ℕ)
  | [], _, none => []
  | [], n, some s => [(s, n)]
  | x :: xs, n, none =>
      if 0 < x then findSegmentsAux xs (n + 1) (some n)
      else findSegmentsAux xs (n + 1) none
  | x :: xs, n, some s =>
      if 0 < x then findSegmentsAux xs (n + 1) (some s)
      else (s, n) :: findSegmentsAux xs (n + 1) none

/-- The maximal runs `[start, end)` of frames with positive pitch. -/
noncomputable def findSegments (xs : List ℝ) : List (ℕ × ℕ) :=
  findSegmentsAux xs 0 none

/-! Section: Segment-aware median smoother

```
for start, end in segments:
    if end - start > median_filter_size:
        segment = processed_pitch[start:end]
        smoothed_segment = medfilt(segment, median_filter_size)
        smoothed_pitch[start:end] = smoothed_segment
processed_pitch = smoothed_pitch
```
`scipy.signal.medfilt` is the symmetric zero-padded median filter; it raises
`ValueError` when the kernel size is even, which is modelled by `medfiltE`
returning `none`.
-/

/-- Python slice `xs[s:e]`. -/
def extract (xs : List ℝ) (s e : ℕ) : List ℝ :=
  (xs.take e).drop s

/-- Numpy slice assignment `acc[s : s+len(v)] = v`. -/
def setRange (acc : List ℝ) (s : ℕ) (v : List ℝ) : List ℝ :=
  acc.take s ++ v ++ acc.drop (s + v.length)

/-- The median of a window: middle element of the sorted window (skipping
ties exactly as `scipy` does for an odd-length window). -/
noncomputable def medianOf (l : List ℝ) : ℝ :=
  (l.insertionSort (· ≤ ·)).getD (l.length / 2) 0

/-- The zero-padded window of size `k` centred on position `i`. -/
noncomputable def windowAt (k : ℕ) (xs : List ℝ) (i : ℕ) : List ℝ :=
  ((List.replicate (k / 2) 0 ++ xs ++ List.replicate (k / 2) 0).drop i).take k

/-- Zero-padded symmetric median filter (the behaviour of
`scipy.signal.medfilt` for an odd kernel size `k`). -/
noncomputable def medfiltPad (k : ℕ) (xs : List ℝ) : List ℝ :=
  (List.range xs.length).map (fun i => medianOf (windowAt k xs i))

/-- `scipy.signal.medfilt`: raises `ValueError` ("each element of
kernel_size should be odd") for an even kernel, modelled as `none`. -/
noncomputable def medfiltE (k : ℕ) (xs : List ℝ) : Option (List ℝ) :=
  if k % 2 = 1 then some (medfiltPad k xs) else none

/-- The smoothing loop over the segment list: reads the unmutated `orig`
array, writes into the accumulator (the `smoothed_pitch` copy).  A `medfilt`
failure aborts the computation (the surrounding `try` in
`VocalProcessingThread.run`, or an uncaught exception in the prototype). -/
noncomputable def smoothSegsE (k : ℕ) (orig : List ℝ) :
    List (ℕ × ℕ) → List ℝ → Option (List ℝ)
  | [], acc => some acc
  | (s, e) :: rest, acc =>
      if k < e - s then
        match medfiltE k (extract orig s e) with
        | none => none
        | some m => smoothSegsE k orig rest (setRange acc s m)
      else smoothSegsE k orig rest acc

/-- The segment-aware smoother: `if np.any(valid_indices): …` then the loop
above starting from a copy of the input. -/
noncomputable def smoothStage (k : ℕ) (xs : List ℝ) : Option (List ℝ) :=
  if xs.any (fun x => decide (0 < x)) then smoothSegsE k xs (findSegments xs) xs
  else some xs

/-! Section: Pipeline orchestrators -/

/-- The post-processing core shared verbatim by `detect_vocal_pitch`
(lines 64–130) and `VocalProcessingThread.run` (lines 306–374): confidence
synthesis, gating, octave correction, segment-aware smoothing.  Returns the
smoothed pitch array and the confidence array, or `none` when `medfilt`
raises. -/
noncomputable def postProcess (thr tol cost : ℝ) (k : ℕ)
    (f0 : List ℝ) (voiced : List Bool) (probs energy : List ℝ) :
    Option (List ℝ × List ℝ) :=
  let conf := confList voiced f0 probs energy
  let tp := threshList thr f0 conf
  let corrected := octaveCorrect tol cost tp conf
  (smoothStage k corrected).map (fun sp => (sp, conf))

/-- `detect_vocal_pitch`: the prototype orchestrator.  The external calls
(`librosa.load` and `librosa.pyin`) are modelled as `Except`-valued inputs;
the function body has no `try`/`except`, so any failure propagates to the
caller unchanged, and a successful run returns the full
`(times, pitches, confidences)` triple with `times[i] = i*hop/sr`. -/
noncomputable def detectVocalPitch (hop : ℕ) (thr tol cost : ℝ) (k : ℕ)
    (load : Except String (List ℝ × ℕ))
    (pyin : List ℝ → ℕ → Except String (List ℝ × List Bool × List ℝ)) :
    Except String (List ℝ × List ℝ × List ℝ) :=
  match load with
  | .error e => .error e
  | .ok (y, sr) =>
    match pyin y sr with
    | .error e => .error e
    | .ok (f0, voiced, probs) =>
      match postProcess thr tol cost k f0 voiced probs (normalizeEnergy (rmsFrames y hop)) with
      | none => .error "ValueError: each element of kernel_size should be odd"
      | some (pl, cl) =>
          .ok ((List.range f0.length).map (fun i => (i : ℝ) * hop / sr), pl, cl)

/-- `VocalProcessingThread.run`: the GUI orchestrator.  Its whole body is
wrapped in `try: … except: self.finished_signal.emit(None, None, None, 0)`,
so every failure (decode, estimator, `medfilt`) is surfaced as the
distinguished `(None, None, None, 0)` emission — modelled as `none` — which
the `processing_finished` handler reports as "Error loading file"; a
successful run emits `(audio_data, pitch_list, confidence_list, sample_rate)`. -/
noncomputable def runThread (hop : ℕ) (thr tol cost : ℝ) (k : ℕ)
    (load : Except String (List ℝ × ℕ))
    (pyin : List ℝ → ℕ → Except String (List ℝ × List Bool × List ℝ)) :
    Option (List ℝ × List ℝ × List ℝ × ℕ) :=
  match load with
  | .error _ => none
  | .ok (y, sr) =>
    match pyin y sr with
    | .error _ => none
    | .ok (f0, voiced, probs) =>
      match postProcess thr tol cost k f0 voiced probs (normalizeEnergy (rmsFrames y hop)) with
      | none => none
      | some (pl, cl) => some (y, pl, cl, sr)

/-- `PitchTrackApp.update_settings` (pitch_track.py lines 617–620): the GUI
caller coerces an even median filter size to the next odd number before
constructing the processing thread:
```
self.median_filter_size = self.filter_slider.value()
if self.median_filter_size % 2 == 0:
    self.median_filter_size += 1
```
-/
def coerceMedianFilterSize (n : ℕ) : ℕ :=
  if n % 2 = 0 then n + 1 else n

/-! Section: Helper lemmas -/

lemma octaveDiff_440_880 : octaveDiff 440 880 = 1 := by
  unfold octaveDiff
  rw [show (880 : ℝ) / 440 = 2 by norm_num, Real.logb_self_eq_one one_lt_two, abs_one]

lemma octaveDiff_440_440 : octaveDiff 440 440 = 0 := by
  unfold octaveDiff
  rw [show (440 : ℝ) / 440 = 1 by norm_num, Real.logb_one, abs_zero]

/-- When all four gating conditions of the corrector hold, the `if`-chain
reaches the halve/double branch. -/
lemma correctFrame_applied {tol cost prevP prevC curP curC : ℝ}
    (hp : 0 < prevP) (hc : 0 < curP)
    (hjump : tol < octaveDiff prevP curP)
    (hoct : |octaveDiff prevP curP - 1| < 0.1)
    (hconf : curC < prevC * (1 + cost)) :
    correctFrame tol cost prevP prevC curP curC =
      if prevP < curP then curP / 2 else curP * 2 := by
  unfold correctFrame
  rw [if_pos ⟨hc, hp⟩, if_pos hjump, if_pos hoct, if_pos hconf]

/-! Section: C3: octave-corrector postcondition -/

/-- C3: Whenever a correction is applied at a frame (both pitches
positive, `octaveDiff > continuityTolerance`, `|octaveDiff - 1| < 0.1` and
`confidence[i] < confidence[i-1] * (1 + octaveCost)`), the halved/doubled
pitch lands within one octave of the previous frame: the new
`|log2(pitch[i]/pitch[i-1])|` is below `0.1`, hence below `1`. -/
theorem correctFrame_lands_within_octave (tol cost prevP prevC curP curC : ℝ)
    (hp : 0 < prevP) (hc : 0 < curP)
    (hjump : tol < octaveDiff prevP curP)
    (hoct : |octaveDiff prevP curP - 1| < 0.1)
    (hconf : curC < prevC * (1 + cost)) :
    |Real.logb 2 (correctFrame tol cost prevP prevC curP curC / prevP)| < 0.1 ∧
    |Real.logb 2 (correctFrame tol cost prevP prevC curP curC / prevP)| < 1 := by
  rw [correctFrame_applied hp hc hjump hoct hconf]
  have hratio : curP / prevP ≠ 0 := ne_of_gt (div_pos hc hp)
  have key : |Real.logb 2 ((if prevP < curP then curP / 2 else curP * 2) / prevP)| < 0.1 := by
    by_cases hlt : prevP < curP
    · rw [if_pos hlt]
      have h1 : curP / 2 / prevP = curP / prevP / 2 := by ring
      rw [h1, Real.logb_div hratio two_ne_zero, Real.logb_self_eq_one one_lt_two]
      have hgt1 : 1 < curP / prevP := (one_lt_div hp).mpr hlt
      have hd : octaveDiff prevP curP = Real.logb 2 (curP / prevP) :=
        abs_of_pos (Real.logb_pos one_lt_two hgt1)
      rw [hd] at hoct
      calc |Real.logb 2 (curP / prevP) - 1|
          = |Real.logb 2 (curP / prevP) - 1| := rfl
        _ < 0.1 := hoct
    · rw [if_neg hlt]
      push_neg at hlt
      have h1 : curP * 2 / prevP = curP / prevP * 2 := by ring
      rw [h1, Real.logb_mul hratio two_ne_zero, Real.logb_self_eq_one one_lt_two]
      have hle1 : curP / prevP ≤ 1 := (div_le_one hp).mpr hlt
      have hll : Real.logb 2 (curP / prevP) ≤ 0 :=
        Real.logb_nonpos one_lt_two (le_of_lt (div_pos hc hp)) hle1
      have hd : octaveDiff prevP curP = -Real.logb 2 (curP / prevP) := abs_of_nonpos hll
      rw [hd] at hoct
      rw [abs_sub_comm] at hoct
      have : |Real.logb 2 (curP / prevP) + 1| = |1 - -Real.logb 2 (curP / prevP)| := by
        congr 1; ring
      rw [this]
      exact hoct
  exact ⟨key, lt_trans key (by norm_num)⟩

/-- Witness for C3 at the spec's own example: previous pitch 440 Hz with
confidence 0.9, current pitch 880 Hz with confidence 0.5, default
parameters. -/
theorem correctFrame_lands_within_octave_witness :
    (0 : ℝ) < 440 ∧ (0 : ℝ) < 880 ∧
    (0.2 : ℝ) < octaveDiff 440 880 ∧ |octaveDiff 440 880 - 1| < 0.1 ∧
    (0.5 : ℝ) < 0.9 * (1 + 0.9) ∧
    |Real.logb 2 (correctFrame 0.2 0.9 440 0.9 880 0.5 / 440)| < 0.1 := by
  refine ⟨by norm_num, by norm_num, ?_, ?_, by norm_num, ?_⟩
  · rw [octaveDiff_440_880]; norm_num
  · rw [octaveDiff_440_880]; norm_num
  · exact (correctFrame_lands_within_octave 0.2 0.9 440 0.9 880 0.5
      (by norm_num) (by norm_num)
      (by rw [octaveDiff_440_880]; norm_num)
      (by rw [octaveDiff_440_880]; norm_num)
      (by norm_num)).1

/-! Section: C1: octave-correction convergence -/

lemma correctFrame_880_halved {c0 c1 : ℝ} (h0 : 0 ≤ c0) (h1 : c1 < c0) :
    correctFrame 0.2 0.9 440 c0 880 c1 = 440 := by
  rw [correctFrame_applied (by norm_num) (by norm_num)
    (by rw [octaveDiff_440_880]; norm_num)
    (by rw [octaveDiff_440_880]; norm_num)
    (by nlinarith)]
  rw [if_pos (by norm_num : (440 : ℝ) < 880)]
  norm_num

lemma correctFrame_440_unchanged (pc cc : ℝ) :
    correctFrame 0.2 0.9 440 pc 440 cc = 440 := by
  unfold correctFrame
  rw [if_pos ⟨by norm_num, by norm_num⟩,
    if_neg (by rw [octaveDiff_440_440]; norm_num)]

/-- C1: For the input pitch sequence `[440, 880, 440, 440]` with any
confidence profile in which `confidence[1] < confidence[0]` (confidences
being nonnegative), the single forward pass of the octave corrector with the
default parameters (`continuityTolerance = 0.2`, `octaveCost = 0.9`) yields
`[440, 440, 440, 440]`: at `i = 1` the octave difference is exactly 1, the
candidate and cost conditions hold, 880 is halved, and the remaining frames
are left unchanged. -/
theorem octave_correction_convergence (c0 c1 c2 c3 : ℝ)
    (h0 : 0 ≤ c0) (h1 : c1 < c0) :
    octaveCorrect 0.2 0.9 [440, 880, 440, 440] [c0, c1, c2, c3] =
      [440, 440, 440, 440] := by
  simp only [octaveCorrect, List.zip_cons_cons, List.zip_nil_left]
  simp only [octCorrGo, correctFrame_880_halved h0 h1, correctFrame_440_unchanged]

/-- Witness for C1 with the concrete confidence profile
`[0.9, 0.5, 0.8, 0.8]`. -/
theorem octave_correction_convergence_witness :
    (0 : ℝ) ≤ 0.9 ∧ (0.5 : ℝ) < 0.9 ∧
    octaveCorrect 0.2 0.9 [440, 880, 440, 440] [0.9, 0.5, 0.8, 0.8] =
      [440, 440, 440, 440] :=
  ⟨by norm_num, by norm_num,
    octave_correction_convergence 0.9 0.5 0.8 0.8 (by norm_num) (by norm_num)⟩

/-! Section: C4: confidence range -/

lemma le_foldr_max {l : List ℝ} {x a : ℝ} (hx : x ∈ l) : x ≤ l.foldr max a := by
  induction l with
  | nil => cases hx
  | cons y ys ih =>
    rcases List.mem_cons.mp hx with rfl | hx'
    · exact le_max_left _ _
    · exact le_trans (ih hx') (le_max_right _ _)

lemma init_le_foldr_max (l : List ℝ) (a : ℝ) : a ≤ l.foldr max a := by
  induction l with
  | nil => exact le_refl _
  | cons y ys ih => exact le_trans ih (le_max_right _ _)

lemma confidenceAt_mem_unit {vf : Bool} {f0 vp en : ℝ}
    (hp0 : 0 ≤ vp) (hp1 : vp ≤ 1) (he0 : 0 ≤ en) (he1 : en ≤ 1) :
    0 ≤ confidenceAt vf f0 vp en ∧ confidenceAt vf f0 vp en ≤ 1 := by
  unfold confidenceAt
  split
  · constructor
    · nlinarith
    · nlinarith
  · norm_num

lemma confList_getD_cases (vfs : List Bool) (fs ps es : List ℝ) :
    ∀ i, (confList vfs fs ps es).getD i 0 = 0 ∨
      ∃ vf f, ∃ p ∈ ps, ∃ e ∈ es,
        (confList vfs fs ps es).getD i 0 = confidenceAt vf f p e := by
  induction vfs generalizing fs ps es with
  | nil => intro i; left; simp [confList]
  | cons vf vfs ih =>
    intro i
    match fs, ps, es with
    | [], _, _ => left; simp [confList]
    | _ :: _, [], _ => left; simp [confList]
    | _ :: _, _ :: _, [] => left; simp [confList]
    | f :: fs', p :: ps', e :: es' =>
      cases i with
      | zero =>
        right
        exact ⟨vf, f, p, List.mem_cons_self _ _, e, List.mem_cons_self _ _, rfl⟩
      | succ j =>
        rcases ih fs' ps' es' j with h | ⟨vf', f', p', hp', e', he', h⟩
        · left; simpa [confList] using h
        · right
          exact ⟨vf', f', p', List.mem_cons_of_mem _ hp', e',
            List.mem_cons_of_mem _ he', by simpa [confList] using h⟩

/-- C4: Assuming every voicing probability and every (normalized) energy
value lies in `[0,1]`, every entry of the synthesized confidence array lies
in `[0,1]`; the normalized energy estimator indeed produces values in
`[0,1]` from nonnegative raw RMS values; and the confidence array returned
by the pipeline is the synthesized one, so its entries stay in `[0,1]`. -/
theorem confidence_unit_interval (voiced : List Bool) (f0 probs energy : List ℝ)
    (hp : ∀ x ∈ probs, 0 ≤ x ∧ x ≤ 1) (he : ∀ x ∈ energy, 0 ≤ x ∧ x ≤ 1) :
    (∀ i, 0 ≤ (confList voiced f0 probs energy).getD i 0 ∧
          (confList voiced f0 probs energy).getD i 0 ≤ 1) ∧
    (∀ es : List ℝ, (∀ x ∈ es, 0 ≤ x) → ∀ x ∈ normalizeEnergy es, 0 ≤ x ∧ x ≤ 1) ∧
    (∀ thr tol cost k pl cl,
      postProcess thr tol cost k f0 voiced probs energy = some (pl, cl) →
      ∀ i, 0 ≤ cl.getD i 0 ∧ cl.getD i 0 ≤ 1) := by
  have main : ∀ i, 0 ≤ (confList voiced f0 probs energy).getD i 0 ∧
      (confList voiced f0 probs energy).getD i 0 ≤ 1 := by
    intro i
    rcases confList_getD_cases voiced f0 probs energy i with h | ⟨vf, f, p, hpm, e, hem, h⟩
    · rw [h]; norm_num
    · rw [h]
      exact confidenceAt_mem_unit (hp p hpm).1 (hp p hpm).2 (he e hem).1 (he e hem).2
  refine ⟨main, ?_, ?_⟩
  · intro es hpos x hx
    unfold normalizeEnergy at hx
    by_cases hm : 0 < es.foldr max 0
    · rw [if_pos hm] at hx
      rcases List.mem_map.mp hx with ⟨y, hy, rfl⟩
      constructor
      · exact div_nonneg (hpos y hy) (le_of_lt hm)
      · exact (div_le_one hm).mpr (le_foldr_max hy)
    · rw [if_neg hm] at hx
      push_neg at hm
      have h0 : (0 : ℝ) ≤ es.foldr max 0 := init_le_foldr_max es 0
      have hx0 : x ≤ 0 := le_trans (le_foldr_max hx) (le_of_eq (le_antisymm hm h0))
      constructor
      · exact hpos x hx
      · exact le_trans hx0 (by norm_num)
  · intro thr tol cost k pl cl hpp i
    unfold postProcess at hpp
    rcases Option.map_eq_some'.mp hpp with ⟨sp, _, heq⟩
    have : cl = confList voiced f0 probs energy := (Prod.mk.injEq _ _ _ _ ▸ heq).2.symm
    rw [this]
    exact main i

/-- Witness for C4 at a concrete frame: voiced frame with pitch 440 Hz,
probability 0.8, energy 0.5. -/
theorem confidence_unit_interval_witness :
    (∀ x ∈ [(0.8 : ℝ)], 0 ≤ x ∧ x ≤ 1) ∧ (∀ x ∈ [(0.5 : ℝ)], 0 ≤ x ∧ x ≤ 1) ∧
    (∀ i, 0 ≤ (confList [true] [440] [0.8] [0.5]).getD i 0 ∧
          (confList [true] [440] [0.8] [0.5]).getD i 0 ≤ 1) := by
  refine ⟨?_, ?_, ?_⟩
  · intro x hx; rw [List.mem_singleton.mp hx]; norm_num
  · intro x hx; rw [List.mem_singleton.mp hx]; norm_num
  · exact (confidence_unit_interval [true] [440] [0.8] [0.5]
      (by intro x hx; rw [List.mem_singleton.mp hx]; norm_num)
      (by intro x hx; rw [List.mem_singleton.mp hx]; norm_num)).1

/-! Section: C7: failure surfacing -/

/-- C7: If the audio decode or the upstream estimator fails, both
orchestrators surface the failure to the caller as an explicit error
signal — the prototype propagates the error itself, the GUI thread emits
the distinguished `(None, None, None, 0)` sentinel (`none`) — and neither
ever produces a `(time, pitch, confidence)`-style success result in its
place. -/
theorem failure_surfacing (hop : ℕ) (thr tol cost : ℝ) (k : ℕ) :
    (∀ e pyin, detectVocalPitch hop thr tol cost k (.error e) pyin = .error e) ∧
    (∀ y sr e pyin, pyin y sr = .error e →
      detectVocalPitch hop thr tol cost k (.ok (y, sr)) pyin = .error e) ∧
    (∀ e pyin, runThread hop thr tol cost k (.error e) pyin = none) ∧
    (∀ y sr e pyin, pyin y sr = .error e →
      runThread hop thr tol cost k (.ok (y, sr)) pyin = none) ∧
    (∀ e pyin r, detectVocalPitch hop thr tol cost k (.error e) pyin ≠ .ok r) ∧
    (∀ e pyin r, runThread hop thr tol cost k (.error e) pyin ≠ some r) := by
    refine ⟨?_, ?_, ?_, ?_, ?_, ?_⟩
    · intro e pyin; rfl
    · intro y sr e pyin h; simp [detectVocalPitch, h]
    · intro e pyin; rfl
    · intro y sr e pyin h; simp [runThread, h]
    · intro e pyin r; intro hcon; exact Except.noConfusion hcon
    · intro e pyin r; intro hcon; exact Option.noConfusion hcon

/-- Witness for C7: a failing decode and a failing estimator, instantiated
concretely. -/
theorem failure_surfacing_witness :
    detectVocalPitch 512 0.05 0.2 0.9 11 (.error "decode failed")
        (fun _ _ => .ok ([], [], [])) = .error "decode failed" ∧
    runThread 512 0.05 0.2 0.9 11 (.ok ([0], 44100))
        (fun _ _ => .error "pyin failed") = none := by
  constructor
  · exact (failure_surfacing 512 0.05 0.2 0.9 11).1 "decode failed" _
  · exact (failure_surfacing 512 0.05 0.2 0.9 11).2.2.2.1 [0] 44100 "pyin failed"
      (fun _ _ => .error "pyin failed") rfl

/-! Section: Corrector frame-wise behaviour (shared by C5 and C10) -/

/-- Each loop iteration either leaves the frame unchanged or rescales a
positive frame to another positive value. -/
lemma correctFrame_cases (tol cost prevP prevC curP curC : ℝ) :
    correctFrame tol cost prevP prevC curP curC = curP ∨
    (0 < curP ∧ 0 < correctFrame tol cost prevP prevC curP curC) := by
  unfold correctFrame
  split_ifs with h1 h2 h3 h4 h5
  · right; exact ⟨h1.1, by have := h1.1; positivity⟩
  · right; exact ⟨h1.1, by have := h1.1; positivity⟩
  · left; rfl
  · left; rfl
  · left; rfl
  · left; rfl

lemma octCorrGo_length (tol cost : ℝ) :
    ∀ (rest : List (ℝ × ℝ)) (prevP prevC : ℝ),
      (octCorrGo tol cost prevP prevC rest).length = rest.length := by
  intro rest
  induction rest with
  | nil => intro _ _; rfl
  | cons pc rest ih =>
    intro prevP prevC
    obtain ⟨p, c⟩ := pc
    simp [octCorrGo, ih]

lemma octCorrGo_pointwise (tol cost : ℝ) :
    ∀ (rest : List (ℝ × ℝ)) (prevP prevC : ℝ) (i : ℕ),
      (octCorrGo tol cost prevP prevC rest).getD i 0 = (rest.map Prod.fst).getD i 0 ∨
      (0 < (rest.map Prod.fst).getD i 0 ∧
       0 < (octCorrGo tol cost prevP prevC rest).getD i 0) := by
  intro rest
  induction rest with
  | nil => intro _ _ i; left; rfl
  | cons pc rest ih =>
    intro prevP prevC i
    obtain ⟨p, c⟩ := pc
    cases i with
    | zero =>
      simpa [octCorrGo] using correctFrame_cases tol cost prevP prevC p c
    | succ j =>
      simpa [octCorrGo] using
        ih (correctFrame tol cost prevP prevC p c) c j

lemma octaveCorrect_length (tol cost : ℝ) (pitch conf : List ℝ)
    (h : pitch.length ≤ conf.length) :
    (octaveCorrect tol cost pitch conf).length = pitch.length := by
  match pitch, conf with
  | [], _ => simp [octaveCorrect]
  | p :: ps, [] => simp at h
  | p :: ps, c :: cs =>
    simp only [octaveCorrect, List.zip_cons_cons]
    simp only [List.length_cons] at h ⊢
    rw [octCorrGo_length, List.length_zip]
    omega

/-- The corrector either leaves a frame untouched or maps a positive frame
to a positive value; in particular the voicing mask is unchanged. -/
lemma octaveCorrect_pointwise (tol cost : ℝ) (pitch conf : List ℝ)
    (h : pitch.length ≤ conf.length) (i : ℕ) :
    (octaveCorrect tol cost pitch conf).getD i 0 = pitch.getD i 0 ∨
    (0 < pitch.getD i 0 ∧ 0 < (octaveCorrect tol cost pitch conf).getD i 0) := by
  match pitch, conf with
  | [], _ => left; simp [octaveCorrect]
  | p :: ps, [] => simp at h
  | p :: ps, c :: cs =>
    simp only [octaveCorrect, List.zip_cons_cons]
    cases i with
    | zero => left; rfl
    | succ j =>
      have hlen : ps.length ≤ cs.length := by
        simp only [List.length_cons] at h; omega
      have := octCorrGo_pointwise tol cost (ps.zip cs) p c j
      rw [List.map_fst_zip ps cs hlen] at this
      simpa using this

/-! Section: C5: the threshold gate is preserved by the corrector -/

lemma threshList_length (thr : ℝ) :
    ∀ fs cs : List ℝ, (threshList thr fs cs).length = min fs.length cs.length := by
  intro fs
  induction fs with
  | nil => intro cs; simp [threshList]
  | cons f fs ih =>
    intro cs
    match cs with
    | [] => simp [threshList]
    | c :: cs =>
      simp only [threshList, List.length_cons, ih]
      omega

lemma threshList_getD_cases (thr : ℝ) :
    ∀ (fs cs : List ℝ) (i : ℕ),
      (threshList thr fs cs).getD i 0 = 0 ∨
      (thr < cs.getD i 0 ∧ 0 < fs.getD i 0 ∧
        (threshList thr fs cs).getD i 0 = fs.getD i 0) := by
  intro fs
  induction fs with
  | nil => intro cs i; left; simp [threshList]
  | cons f fs ih =>
    intro cs i
    match cs with
    | [] => left; simp [threshList]
    | c :: cs =>
      cases i with
      | zero =>
        by_cases hc : thr < c ∧ 0 < f
        · right
          simpa [threshList, if_pos hc] using ⟨hc.1, hc.2⟩
        · left
          simp [threshList, if_neg hc]
      | succ j =>
        simpa [threshList] using ih cs j

/-- C5: Every frame whose pitch is nonzero just before smoothing (after
confidence gating and octave correction) passed the confidence gate: its
confidence exceeds the energy threshold.  The corrector never turns a zero
frame nonzero. -/
theorem threshold_gate_preserved (thr tol cost : ℝ) (f0 conf : List ℝ) (i : ℕ)
    (h : (octaveCorrect tol cost (threshList thr f0 conf) conf).getD i 0 ≠ 0) :
    thr < conf.getD i 0 := by
  have hlen : (threshList thr f0 conf).length ≤ conf.length := by
    rw [threshList_length]; exact min_le_right _ _
  have htp : (threshList thr f0 conf).getD i 0 ≠ 0 := by
    rcases octaveCorrect_pointwise tol cost (threshList thr f0 conf) conf hlen i with
      heq | ⟨hpos, _⟩
    · rw [heq] at h; exact h
    · exact ne_of_gt hpos
  rcases threshList_getD_cases thr f0 conf i with h0 | ⟨hthr, _, _⟩
  · exact absurd h0 htp
  · exact hthr

/-- Witness for C5: a single voiced frame of 440 Hz with confidence 0.9 and
threshold 0.05. -/
theorem threshold_gate_preserved_witness :
    (octaveCorrect 0.2 0.9 (threshList 0.05 [440] [0.9]) [(0.9 : ℝ)]).getD 0 0 ≠ 0 ∧
    (0.05 : ℝ) < [(0.9 : ℝ)].getD 0 0 := by
  have heval : octaveCorrect 0.2 0.9 (threshList 0.05 [440] [0.9]) [(0.9 : ℝ)] = [440] := by
    have h1 : threshList 0.05 [440] [(0.9 : ℝ)] = [440] := by
      rw [show threshList 0.05 [(440 : ℝ)] [(0.9 : ℝ)] =
        [if (0.05 : ℝ) < 0.9 ∧ (0 : ℝ) < 440 then (440 : ℝ) else 0] from rfl]
      norm_num
    rw [h1]
    rfl
  constructor
  · rw [heval]; norm_num
  · exact threshold_gate_preserved 0.05 0.2 0.9 [440] [0.9] 0 (by rw [heval]; norm_num)

/-! Section: C2: segment decomposition

Characterization of `findSegmentsAux`: the lemma is stated relative to the
suffix `l` of the pitch array starting at global frame `n`, with `st` the
current value of `segment_start`. -/

/-- Per-segment properties that do not depend on the loop state: proper
nonempty interval, inside bounds, positive interior (for frames at or after
offset `n`), and right-maximality. -/
def SegProp (l : List ℝ) (n : ℕ) (se : ℕ × ℕ) : Prop :=
  se.1 < se.2 ∧ n ≤ se.2 ∧ se.2 ≤ n + l.length ∧
  (∀ i, se.1 ≤ i → i < se.2 → n ≤ i → 0 < l.getD (i - n) 0) ∧
  (se.2 = n + l.length ∨ ¬ 0 < l.getD (se.2 - n) 0)

/-- Left-maximality, relative to the loop state: with no open segment every
listed segment starts at or after `n`, and if it starts strictly later the
frame before its start is not positive; with an open segment started at
`s₀` a listed segment either is the continuation of that one or starts
strictly after `n` behind a nonpositive frame. -/
def StartProp (l : List ℝ) (n : ℕ) (st : Option ℕ) (se : ℕ × ℕ) : Prop :=
  match st with
  | none => n ≤ se.1 ∧ (n < se.1 → ¬ 0 < l.getD (se.1 - 1 - n) 0)
  | some s₀ => se.1 = s₀ ∨ (n < se.1 ∧ ¬ 0 < l.getD (se.1 - 1 - n) 0)

lemma getD_cons_shift (x : ℝ) (xs : List ℝ) {i n : ℕ} (h : n + 1 ≤ i) :
    (x :: xs).getD (i - n) 0 = xs.getD (i - (n + 1)) 0 := by
  have heq : i - n = (i - (n + 1)) + 1 := by omega
  rw [heq, List.getD_cons_succ]

lemma findSegmentsAux_spec (l : List ℝ) :
    ∀ (n : ℕ) (st : Option ℕ), (∀ s₀, st = some s₀ → s₀ < n) →
      (∀ se ∈ findSegmentsAux l n st, SegProp l n se ∧ StartProp l n st se) ∧
      List.Pairwise (fun a b => a.2 ≤ b.1) (findSegmentsAux l n st) ∧
      (∀ i, n ≤ i → i < n + l.length → 0 < l.getD (i - n) 0 →
        ∃ se ∈ findSegmentsAux l n st, se.1 ≤ i ∧ i < se.2) ∧
      (∀ s₀, st = some s₀ →
        ∃ e rest, findSegmentsAux l n st = (s₀, e) :: rest ∧ n ≤ e) := by
  induction l with
  | nil =>
    intro n st hst
    match st with
    | none =>
      refine ⟨?_, ?_, ?_, ?_⟩
      · intro se hse; simp [findSegmentsAux] at hse
      · simp [findSegmentsAux]
      · intro i hni hilt _; simp at hilt; omega
      · intro s₀ h; exact Option.noConfusion h
    | some s₀ =>
      have hs : s₀ < n := hst s₀ rfl
      refine ⟨?_, ?_, ?_, ?_⟩
      · intro se hse
        simp only [findSegmentsAux, List.mem_singleton] at hse
        subst hse
        refine ⟨⟨hs, le_refl n, by simp, ?_, ?_⟩, Or.inl rfl⟩
        · intro i _ hi2 hni; omega
        · left; simp
      · simp [findSegmentsAux]
      · intro i hni hilt _; simp at hilt; omega
      · intro s₀' h
        obtain rfl := Option.some.inj h
        exact ⟨n, [], rfl, le_refl n⟩
  | cons x xs ih =>
    intro n st hst
    match st with
    | none =>
      by_cases hx : 0 < x
      · -- a new segment opens at frame n
        have hrec : findSegmentsAux (x :: xs) n none = findSegmentsAux xs (n + 1) (some n) := by
          simp [findSegmentsAux, if_pos hx]
        obtain ⟨hmem, hpw, hcov, hhead⟩ :=
          ih (n + 1) (some n) (by intro s₀ h; cases h; omega)
        rw [hrec]
        refine ⟨?_, hpw, ?_, ?_⟩
        · intro se hse
          obtain ⟨⟨h12, hn2, h2b, hint, hrmax⟩, hstart⟩ := hmem se hse
          refine ⟨⟨h12, by omega, by simp; omega, ?_, ?_⟩, ?_⟩
          · intro i hi1 hi2 hni
            rcases Nat.eq_or_lt_of_le hni with rfl | hgt
            · simpa using hx
            · rw [getD_cons_shift x xs hgt]
              exact hint i hi1 hi2 hgt
          · rcases hrmax with h | h
            · left; simp; omega
            · right; rwa [getD_cons_shift x xs hn2]
          · rcases hstart with h | ⟨hgt, hnp⟩
            · exact ⟨by omega, by omega⟩
            · refine ⟨by omega, fun _ => ?_⟩
              rwa [getD_cons_shift x xs (by omega : n + 1 ≤ se.1 - 1)]
        · intro i hni hilt hpos
          rcases Nat.eq_or_lt_of_le hni with rfl | hgt
          · obtain ⟨e, rest, heq, hne⟩ := hhead n rfl
            refine ⟨(n, e), ?_, le_refl n, by omega⟩
            rw [heq]; exact List.mem_cons_self _ _
          · refine hcov i hgt (by simp at hilt; omega) ?_
            rwa [getD_cons_shift x xs hgt] at hpos
        · intro s₀ h; exact Option.noConfusion h
      · -- frame n is not voiced, state stays closed
        have hrec : findSegmentsAux (x :: xs) n none = findSegmentsAux xs (n + 1) none := by
          simp [findSegmentsAux, if_neg hx]
        obtain ⟨hmem, hpw, hcov, _⟩ :=
          ih (n + 1) none (by intro s₀ h; exact Option.noConfusion h)
        rw [hrec]
        refine ⟨?_, hpw, ?_, ?_⟩
        · intro se hse
          obtain ⟨⟨h12, hn2, h2b, hint, hrmax⟩, hstart⟩ := hmem se hse
          obtain ⟨hn1, hleft⟩ := hstart
          refine ⟨⟨h12, by omega, by simp; omega, ?_, ?_⟩, ?_⟩
          · intro i hi1 hi2 hni
            have hgt : n + 1 ≤ i := by omega
            rw [getD_cons_shift x xs hgt]
            exact hint i hi1 hi2 hgt
          · rcases hrmax with h | h
            · left; simp; omega
            · right; rwa [getD_cons_shift x xs hn2]
          · refine ⟨by omega, fun _ => ?_⟩
            rcases Nat.eq_or_lt_of_le hn1 with heq | hgt
            · have : se.1 - 1 - n = 0 := by omega
              rw [this]; simpa using hx
            · rw [getD_cons_shift x xs (by omega : n + 1 ≤ se.1 - 1)]
              exact hleft hgt
        · intro i hni hilt hpos
          rcases Nat.eq_or_lt_of_le hni with rfl | hgt
          · exact absurd (by simpa using hpos) hx
          · refine hcov i hgt (by simp at hilt; omega) ?_
            rwa [getD_cons_shift x xs hgt] at hpos
        · intro s₀ h; exact Option.noConfusion h
    | some s₀ =>
      have hs : s₀ < n := hst s₀ rfl
      by_cases hx : 0 < x
      · -- the open segment continues through frame n
        have hrec : findSegmentsAux (x :: xs) n (some s₀) =
            findSegmentsAux xs (n + 1) (some s₀) := by
          simp [findSegmentsAux, if_pos hx]
        obtain ⟨hmem, hpw, hcov, hhead⟩ :=
          ih (n + 1) (some s₀) (by intro s₀' h; cases h; omega)
        rw [hrec]
        refine ⟨?_, hpw, ?_, ?_⟩
        · intro se hse
          obtain ⟨⟨h12, hn2, h2b, hint, hrmax⟩, hstart⟩ := hmem se hse
          refine ⟨⟨h12, by omega, by simp; omega, ?_, ?_⟩, ?_⟩
          · intro i hi1 hi2 hni
            rcases Nat.eq_or_lt_of_le hni with rfl | hgt
            · simpa using hx
            · rw [getD_cons_shift x xs hgt]
              exact hint i hi1 hi2 hgt
          · rcases hrmax with h | h
            · left; simp; omega
            · right; rwa [getD_cons_shift x xs hn2]
          · rcases hstart with h | ⟨hgt, hnp⟩
            · exact Or.inl h
            · refine Or.inr ⟨by omega, ?_⟩
              rwa [getD_cons_shift x xs (by omega : n + 1 ≤ se.1 - 1)]
        · intro i hni hilt hpos
          rcases Nat.eq_or_lt_of_le hni with rfl | hgt
          · obtain ⟨e, rest, heq, hne⟩ := hhead s₀ rfl
            refine ⟨(s₀, e), ?_, by omega, by omega⟩
            rw [heq]; exact List.mem_cons_self _ _
          · refine hcov i hgt (by simp at hilt; omega) ?_
            rwa [getD_cons_shift x xs hgt] at hpos
        · intro s₀' h
          obtain rfl := Option.some.inj h
          obtain ⟨e, rest, heq, hne⟩ := hhead s₀ rfl
          exact ⟨e, rest, heq, by omega⟩
      · -- the open segment closes at frame n
        have hrec : findSegmentsAux (x :: xs) n (some s₀) =
            (s₀, n) :: findSegmentsAux xs (n + 1) none := by
          simp [findSegmentsAux, if_neg hx]
        obtain ⟨hmem, hpw, hcov, _⟩ :=
          ih (n + 1) none (by intro s₀' h; exact Option.noConfusion h)
        rw [hrec]
        refine ⟨?_, ?_, ?_, ?_⟩
        · intro se hse
          rcases List.mem_cons.mp hse with rfl | hse'
          · refine ⟨⟨hs, le_refl n, by simp, ?_, ?_⟩, Or.inl rfl⟩
            · intro i _ hi2 hni; omega
            · right; simpa using hx
          · obtain ⟨⟨h12, hn2, h2b, hint, hrmax⟩, hstart⟩ := hmem se hse'
            obtain ⟨hn1, hleft⟩ := hstart
            refine ⟨⟨h12, by omega, by simp; omega, ?_, ?_⟩, ?_⟩
            · intro i hi1 hi2 hni
              have hgt : n + 1 ≤ i := by omega
              rw [getD_cons_shift x xs hgt]
              exact hint i hi1 hi2 hgt
            · rcases hrmax with h | h
              · left; simp; omega
              · right; rwa [getD_cons_shift x xs hn2]
            · refine Or.inr ⟨by omega, ?_⟩
              rcases Nat.eq_or_lt_of_le hn1 with heq | hgt
              · have : se.1 - 1 - n = 0 := by omega
                rw [this]; simpa using hx
              · rw [getD_cons_shift x xs (by omega : n + 1 ≤ se.1 - 1)]
                exact hleft hgt
        · refine List.pairwise_cons.mpr ⟨?_, hpw⟩
          intro se hse
          exact le_trans (by omega) (hmem se hse).2.1
        · intro i hni hilt hpos
          rcases Nat.eq_or_lt_of_le hni with rfl | hgt
          · exact absurd (by simpa using hpos) hx
          · obtain ⟨se, hse, h1, h2⟩ := hcov i hgt (by simp at hilt; omega)
              (by rwa [getD_cons_shift x xs hgt] at hpos)
            exact ⟨se, List.mem_cons_of_mem _ hse, h1, h2⟩
        · intro s₀' h
          obtain rfl := Option.some.inj h
          exact ⟨n, _, rfl, le_refl n⟩

/-- C2: For every pitch array the computed segment list consists of
exactly the maximal contiguous runs `[start, end)` of frames with positive
pitch: each listed segment is a nonempty in-bounds interval whose interior
frames are all positive and which cannot be extended left or right; the
segments never overlap and are listed in ascending order; and every frame
with positive pitch is covered by some segment.  In particular, for
`[0, 200, 210, 0, 0, 300, 310, 320]` the segments are exactly
`[(1,3), (5,8)]`. -/
theorem segment_decomposition :
    (∀ xs : List ℝ,
      (∀ se ∈ findSegments xs,
        se.1 < se.2 ∧ se.2 ≤ xs.length ∧
        (∀ i, se.1 ≤ i → i < se.2 → 0 < xs.getD i 0) ∧
        (se.1 = 0 ∨ ¬ 0 < xs.getD (se.1 - 1) 0) ∧
        (se.2 = xs.length ∨ ¬ 0 < xs.getD se.2 0)) ∧
      List.Pairwise (fun a b : ℕ × ℕ => a.2 ≤ b.1) (findSegments xs) ∧
      (∀ i, i < xs.length → 0 < xs.getD i 0 →
        ∃ se ∈ findSegments xs, se.1 ≤ i ∧ i < se.2)) ∧
    findSegments [0, 200, 210, 0, 0, 300, 310, 320] = [(1, 3), (5, 8)] := by
  constructor
  · intro xs
    obtain ⟨hmem, hpw, hcov, _⟩ :=
      findSegmentsAux_spec xs 0 none (by intro s₀ h; exact Option.noConfusion h)
    refine ⟨?_, hpw, ?_⟩
    · intro se hse
      obtain ⟨⟨h12, _, h2b, hint, hrmax⟩, h0le, hleft⟩ := hmem se hse
      refine ⟨h12, by simpa using h2b, ?_, ?_, ?_⟩
      · intro i hi1 hi2
        simpa using hint i hi1 hi2 (Nat.zero_le i)
      · rcases Nat.eq_zero_or_pos se.1 with h | h
        · exact Or.inl h
        · exact Or.inr (by simpa using hleft h)
      · rcases hrmax with h | h
        · exact Or.inl (by simpa using h)
        · exact Or.inr (by simpa using h)
    · intro i hilt hpos
      exact hcov i (Nat.zero_le i) (by simpa using hilt) (by simpa using hpos)
  · show findSegmentsAux [0, 200, 210, 0, 0, 300, 310, 320] 0 none = [(1, 3), (5, 8)]
    norm_num [findSegmentsAux]

/-- Witness for C2 at the spec's example: frame 1 is positive and is covered
by a segment of the computed list. -/
theorem segment_decomposition_witness :
    (1 : ℕ) < ([0, 200, 210, 0, 0, 300, 310, 320] : List ℝ).length ∧
    (0 : ℝ) < ([0, 200, 210, 0, 0, 300, 310, 320] : List ℝ).getD 1 0 ∧
    ∃ se ∈ findSegments [0, 200, 210, 0, 0, 300, 310, 320], se.1 ≤ 1 ∧ 1 < se.2 := by
  refine ⟨by norm_num, by norm_num, ?_⟩
  exact (segment_decomposition.1 [0, 200, 210, 0, 0, 300, 310, 320]).2.2 1
    (by norm_num) (by norm_num)

/-! Section: Median lemmas (shared by C9 and C10)

The median of an odd window is its sorted middle element, so it equals any
value held by a strict majority of the window, and it is positive whenever
fewer than half of the window's entries are nonpositive. -/

lemma sorted_getD_mono {s : List ℝ} (hs : List.Sorted (· ≤ ·) s) {j m : ℕ}
    (hj : j ≤ m) (hm : m < s.length) :
    s.getD j 0 ≤ s.getD m 0 := by
  have hjl : j < s.length := lt_of_le_of_lt hj hm
  rw [List.getD_eq_getElem s 0 hjl, List.getD_eq_getElem s 0 hm]
  rcases Nat.eq_or_lt_of_le hj with rfl | hlt
  · exact le_refl _
  · exact hs.rel_get_of_lt (show (⟨j, hjl⟩ : Fin s.length) < ⟨m, hm⟩ from hlt)

lemma countP_le_of_sorted_lt {s : List ℝ} (hs : List.Sorted (· ≤ ·) s) {m : ℕ}
    (hm : m < s.length) {c : ℝ} (hlt : s.getD m 0 < c) :
    s.countP (fun x => decide (x = c)) ≤ s.length - (m + 1) := by
  have hsplit : s = s.take (m + 1) ++ s.drop (m + 1) := (List.take_append_drop _ _).symm
  have hz : (s.take (m + 1)).countP (fun x => decide (x = c)) = 0 := by
    apply List.countP_eq_zero.mpr
    intro a ha
    simp only [decide_eq_true_eq]
    obtain ⟨j, hj, rfl⟩ := List.mem_iff_getElem.mp ha
    have hjm : j ≤ m := by
      have := hj; simp only [List.length_take] at this; omega
    have hjs : j < s.length := by
      have := hj; simp only [List.length_take] at this; omega
    rw [List.getElem_take]
    have hle : s[j] ≤ s.getD m 0 := by
      rw [← List.getD_eq_getElem s 0 hjs]
      exact sorted_getD_mono hs hjm hm
    exact ne_of_lt (lt_of_le_of_lt hle hlt)
  have htot : s.countP (fun x => decide (x = c)) =
      (s.take (m + 1)).countP (fun x => decide (x = c)) +
      (s.drop (m + 1)).countP (fun x => decide (x = c)) := by
    conv_lhs => rw [hsplit]
    exact List.countP_append _ _ _
  have hdrop : (s.drop (m + 1)).countP (fun x => decide (x = c)) ≤ s.length - (m + 1) := by
    have h1 := List.countP_le_length (l := s.drop (m + 1)) (fun x => decide (x = c))
    have h2 := List.length_drop (m + 1) s
    omega
  omega

lemma countP_le_of_sorted_gt {s : List ℝ} (hs : List.Sorted (· ≤ ·) s) {m : ℕ}
    (hm : m < s.length) {c : ℝ} (hgt : c < s.getD m 0) :
    s.countP (fun x => decide (x = c)) ≤ m := by
  have hsplit : s = s.take m ++ s.drop m := (List.take_append_drop _ _).symm
  have hz : (s.drop m).countP (fun x => decide (x = c)) = 0 := by
    apply List.countP_eq_zero.mpr
    intro a ha
    simp only [decide_eq_true_eq]
    obtain ⟨j, hj, rfl⟩ := List.mem_iff_getElem.mp ha
    have hjs : m + j < s.length := by
      have := hj; simp only [List.length_drop] at this; omega
    rw [List.getElem_drop]
    have hge : s.getD m 0 ≤ s[m + j] := by
      rw [← List.getD_eq_getElem s 0 hjs]
      exact sorted_getD_mono hs (Nat.le_add_right m j) hjs
    exact (ne_of_lt (lt_of_lt_of_le hgt hge)).symm
  have htot : s.countP (fun x => decide (x = c)) =
      (s.take m).countP (fun x => decide (x = c)) +
      (s.drop m).countP (fun x => decide (x = c)) := by
    conv_lhs => rw [hsplit]
    exact List.countP_append _ _ _
  have htake : (s.take m).countP (fun x => decide (x = c)) ≤ m := by
    have h1 := List.countP_le_length (l := s.take m) (fun x => decide (x = c))
    have h2 : (s.take m).length ≤ m := by simp [List.length_take]
    omega
  omega

/-- The sorted middle element of a list equals any strict-majority value. -/
lemma medianOf_majority {l : List ℝ} {c : ℝ}
    (h : l.length < 2 * l.countP (fun x => decide (x = c))) :
    medianOf l = c := by
  have hperm : l.insertionSort (· ≤ ·) ~ l := List.perm_insertionSort _ l
  have hsort : List.Sorted (· ≤ ·) (l.insertionSort (· ≤ ·)) :=
    List.sorted_insertionSort _ l
  have hlen : (l.insertionSort (· ≤ ·)).length = l.length := hperm.length_eq
  have hcnt : (l.insertionSort (· ≤ ·)).countP (fun x => decide (x = c)) =
      l.countP (fun x => decide (x = c)) := hperm.countP_eq _
  have hcl : l.countP (fun x => decide (x = c)) ≤ l.length := List.countP_le_length _
  have hm : l.length / 2 < (l.insertionSort (· ≤ ·)).length := by omega
  unfold medianOf
  rcases lt_trichotomy ((l.insertionSort (· ≤ ·)).getD (l.length / 2) 0) c with hlt | heq | hgt
  · have := countP_le_of_sorted_lt hsort hm hlt
    omega
  · exact heq
  · have := countP_le_of_sorted_gt hsort hm hgt
    omega

/-- The sorted middle element is positive when fewer than half of the
entries are nonpositive. -/
lemma medianOf_pos {l : List ℝ}
    (h : 2 * l.countP (fun x => decide (x ≤ 0)) < l.length) :
    0 < medianOf l := by
  have hperm : l.insertionSort (· ≤ ·) ~ l := List.perm_insertionSort _ l
  have hsort : List.Sorted (· ≤ ·) (l.insertionSort (· ≤ ·)) :=
    List.sorted_insertionSort _ l
  have hlen : (l.insertionSort (· ≤ ·)).length = l.length := hperm.length_eq
  have hcnt : (l.insertionSort (· ≤ ·)).countP (fun x => decide (x ≤ 0)) =
      l.countP (fun x => decide (x ≤ 0)) := hperm.countP_eq _
  have hm : l.length / 2 < (l.insertionSort (· ≤ ·)).length := by omega
  by_contra hnp
  push_neg at hnp
  unfold medianOf at hnp
  have hcount : (l.insertionSort (· ≤ ·)).countP (fun x => decide (x ≤ 0)) ≥
      l.length / 2 + 1 := by
    have hsplit : l.insertionSort (· ≤ ·) =
        (l.insertionSort (· ≤ ·)).take (l.length / 2 + 1) ++
        (l.insertionSort (· ≤ ·)).drop (l.length / 2 + 1) :=
      (List.take_append_drop _ _).symm
    have hfull : ((l.insertionSort (· ≤ ·)).take (l.length / 2 + 1)).countP
        (fun x => decide (x ≤ 0)) = l.length / 2 + 1 := by
      have hall : ∀ a ∈ (l.insertionSort (· ≤ ·)).take (l.length / 2 + 1),
          (fun x => decide (x ≤ 0)) a = true := by
        intro a ha
        simp only [decide_eq_true_eq]
        obtain ⟨j, hj, rfl⟩ := List.mem_iff_getElem.mp ha
        have hjm : j ≤ l.length / 2 := by
          have := hj; simp only [List.length_take] at this; omega
        have hjs : j < (l.insertionSort (· ≤ ·)).length := by
          have := hj; simp only [List.length_take] at this; omega
        rw [List.getElem_take, ← List.getD_eq_getElem _ 0 hjs]
        exact le_trans (sorted_getD_mono hsort hjm hm) hnp
      rw [List.countP_eq_length.mpr hall, List.length_take]
      omega
    have htot : (l.insertionSort (· ≤ ·)).countP (fun x => decide (x ≤ 0)) =
        ((l.insertionSort (· ≤ ·)).take (l.length / 2 + 1)).countP
          (fun x => decide (x ≤ 0)) +
        ((l.insertionSort (· ≤ ·)).drop (l.length / 2 + 1)).countP
          (fun x => decide (x ≤ 0)) := by
      conv_lhs => rw [hsplit]
      exact List.countP_append _ _ _
    omega
  omega

/-! Section: Window lemmas: the zero-padded window of an all-positive array of
length at least `k = 2h+1` holds at most `h` nonpositive (padding) entries,
since the window can spill into at most one side's padding. -/

lemma windowAt_length {k h : ℕ} (hk : k = 2 * h + 1) (xs : List ℝ) {i : ℕ}
    (hkL : k ≤ xs.length) (hi : i < xs.length) :
    (windowAt k xs i).length = k := by
  unfold windowAt
  simp only [List.length_take, List.length_drop, List.length_append,
    List.length_replicate]
  omega

lemma windowAt_mem (k : ℕ) (xs : List ℝ) (i : ℕ) :
    ∀ x ∈ windowAt k xs i, x = 0 ∨ x ∈ xs := by
  intro x hx
  unfold windowAt at hx
  have hmem : x ∈ List.replicate (k / 2) (0 : ℝ) ++ xs ++ List.replicate (k / 2) 0 :=
    List.drop_subset _ _ (List.take_subset _ _ hx)
  rcases List.mem_append.mp hmem with h | h
  · rcases List.mem_append.mp h with h' | h'
    · exact Or.inl (List.eq_of_mem_replicate h')
    · exact Or.inr h'
  · exact Or.inl (List.eq_of_mem_replicate h)

lemma windowAt_countP_nonpos_le {k h : ℕ} (hk : k = 2 * h + 1) (xs : List ℝ)
    (hkL : k ≤ xs.length) {i : ℕ} (hi : i < xs.length)
    (hpos : ∀ x ∈ xs, 0 < x) :
    (windowAt k xs i).countP (fun x => decide (x ≤ 0)) ≤ h := by
  have hk2 : k / 2 = h := by omega
  have hxs0 : xs.countP (fun x => decide (x ≤ 0)) = 0 := by
    apply List.countP_eq_zero.mpr
    intro a ha
    simp only [decide_eq_true_eq, not_le]
    exact hpos a ha
  have hrep : ∀ m : ℕ, (List.replicate m (0 : ℝ)).countP (fun x => decide (x ≤ 0)) ≤ m := by
    intro m
    have h1 := List.countP_le_length (l := List.replicate m (0 : ℝ))
      (fun x => decide (x ≤ 0))
    simpa using h1
  unfold windowAt
  rw [hk2]
  by_cases hcase : i + k ≤ h + xs.length
  · -- the window does not reach the right padding
    have heq : ((List.replicate h (0 : ℝ) ++ xs ++ List.replicate h 0).drop i).take k =
        ((List.replicate h (0 : ℝ) ++ xs ++ List.replicate h 0).take (i + k)).drop i := by
      rw [List.drop_take]
      congr 1
      omega
    have htk : (List.replicate h (0 : ℝ) ++ xs ++ List.replicate h 0).take (i + k) =
        (List.replicate h (0 : ℝ) ++ xs).take (i + k) := by
      rw [List.take_append_eq_append_take]
      have hz : i + k - (List.replicate h (0 : ℝ) ++ xs).length = 0 := by
        simp only [List.length_append, List.length_replicate]
        omega
      rw [hz]
      simp
    have hsub : ((List.replicate h (0 : ℝ) ++ xs ++ List.replicate h 0).drop i).take k <+
        List.replicate h (0 : ℝ) ++ xs := by
      rw [heq, htk]
      exact ((List.take_sublist _ _).drop _).trans (List.drop_sublist _ _)
    have hcount := hsub.countP_le (fun x => decide (x ≤ 0))
    rw [List.countP_append] at hcount
    have := hrep h
    omega
  · -- the window starts past the left padding
    have hih : h ≤ i := by omega
    have hdr : (List.replicate h (0 : ℝ) ++ xs ++ List.replicate h 0).drop i =
        (xs ++ List.replicate h 0).drop (i - h) := by
      rw [List.append_assoc, List.drop_append_eq_append_drop]
      have hz : (List.replicate h (0 : ℝ)).drop i = [] := by
        simp only [List.drop_replicate]
        rw [show h - i = 0 by omega]
        rfl
      rw [hz, List.length_replicate]
      rfl
    have hsub : ((List.replicate h (0 : ℝ) ++ xs ++ List.replicate h 0).drop i).take k <+
        xs ++ List.replicate h 0 := by
      rw [hdr]
      exact (List.take_sublist _ _).trans (List.drop_sublist _ _)
    have hcount := hsub.countP_le (fun x => decide (x ≤ 0))
    rw [List.countP_append] at hcount
    have := hrep h
    omega

/-! Section: Median filter lemmas -/

lemma medfiltPad_length (k : ℕ) (xs : List ℝ) :
    (medfiltPad k xs).length = xs.length := by
  unfold medfiltPad
  simp

lemma medfiltPad_getD (k : ℕ) (xs : List ℝ) {i : ℕ} (hi : i < xs.length) :
    (medfiltPad k xs).getD i 0 = medianOf (windowAt k xs i) := by
  unfold medfiltPad
  rw [List.getD_eq_getElem _ _ (by simpa using hi)]
  simp

/-- Inside an all-positive array of length at least `k`, every output of the
zero-padded odd median filter is positive. -/
lemma medfiltPad_pos {k h : ℕ} (hk : k = 2 * h + 1) (xs : List ℝ)
    (hkL : k ≤ xs.length) (hpos : ∀ x ∈ xs, 0 < x) :
    ∀ i, i < xs.length → 0 < (medfiltPad k xs).getD i 0 := by
  intro i hi
  rw [medfiltPad_getD k xs hi]
  apply medianOf_pos
  rw [windowAt_length hk xs hkL hi]
  have := windowAt_countP_nonpos_le hk xs hkL hi hpos
  omega

/-- The zero-padded odd median filter fixes constant positive arrays. -/
lemma medfiltPad_const {k h L : ℕ} {c : ℝ} (hk : k = 2 * h + 1) (hc : 0 < c)
    (hkL : k ≤ L) :
    medfiltPad k (List.replicate L c) = List.replicate L c := by
  have hlen : (medfiltPad k (List.replicate L c)).length = (List.replicate L c).length := by
    rw [medfiltPad_length]
  apply List.ext_getElem hlen
  intro i hi1 hi2
  have hiL : i < L := by simpa using hi2
  have hxl : (List.replicate L c).length = L := List.length_replicate L c
  have hgd : (medfiltPad k (List.replicate L c)).getD i 0 = medianOf (windowAt k (List.replicate L c) i) :=
    medfiltPad_getD k _ (by omega)
  have hwl : (windowAt k (List.replicate L c) i).length = k :=
    windowAt_length hk _ (by omega) (by omega)
  have hmaj : (windowAt k (List.replicate L c) i).length <
      2 * (windowAt k (List.replicate L c) i).countP (fun x => decide (x = c)) := by
    have hnp : (windowAt k (List.replicate L c) i).countP (fun x => decide (x ≤ 0)) ≤ h :=
      windowAt_countP_nonpos_le hk _ (by omega) (by omega)
        (fun x hx => (List.eq_of_mem_replicate hx) ▸ hc)
    have hsplit := List.length_eq_countP_add_countP (fun x => decide (x = c))
      (l := windowAt k (List.replicate L c) i)
    have hmono : (windowAt k (List.replicate L c) i).countP
        (fun a => decide ¬(decide (a = c) = true)) ≤
        (windowAt k (List.replicate L c) i).countP (fun x => decide (x ≤ 0)) := by
      apply List.countP_mono_left
      intro a ha hne
      simp only [decide_eq_true_eq] at hne ⊢
      rcases windowAt_mem k (List.replicate L c) i a ha with h0 | hmem
      · exact le_of_eq h0
      · exact absurd (List.eq_of_mem_replicate hmem) hne
    omega
  have hmed : medianOf (windowAt k (List.replicate L c) i) = c := medianOf_majority hmaj
  rw [← List.getD_eq_getElem _ 0 hi1, ← List.getD_eq_getElem _ 0 hi2, hgd, hmed]
  rw [List.getD_eq_getElem _ _ hi2]
  exact (List.getElem_replicate ..).symm

/-! Section: Slice-assignment lemmas -/

lemma getD_take {acc : List ℝ} {s i : ℕ} (hi : i < s) (hs : i < acc.length) :
    (acc.take s).getD i 0 = acc.getD i 0 := by
  rw [List.getD_eq_getElem _ _ (by simp [List.length_take]; omega),
    List.getD_eq_getElem _ _ hs]
  exact List.getElem_take ..

lemma getD_drop (acc : List ℝ) (n j : ℕ) :
    (acc.drop n).getD j 0 = acc.getD (n + j) 0 := by
  by_cases hb : n + j < acc.length
  · rw [List.getD_eq_getElem _ _ (by simp [List.length_drop]; omega),
      List.getD_eq_getElem _ _ hb]
    rw [List.getElem_drop]
  · rw [List.getD_eq_default _ _ (by simp [List.length_drop]; omega),
      List.getD_eq_default _ _ (by omega)]

lemma setRange_length {acc v : List ℝ} {s : ℕ} (h : s + v.length ≤ acc.length) :
    (setRange acc s v).length = acc.length := by
  unfold setRange
  simp only [List.length_append, List.length_take, List.length_drop]
  omega

lemma setRange_getD_lt {acc v : List ℝ} {s i : ℕ} (hs : s ≤ acc.length)
    (hi : i < s) : (setRange acc s v).getD i 0 = acc.getD i 0 := by
  unfold setRange
  rw [List.getD_append _ _ _ _ (by simp [List.length_append, List.length_take]; omega),
    List.getD_append _ _ _ _ (by simp [List.length_take]; omega)]
  exact getD_take hi (by omega)

lemma setRange_getD_mid {acc v : List ℝ} {s i : ℕ} (hs : s ≤ acc.length)
    (hi1 : s ≤ i) (hi2 : i < s + v.length) :
    (setRange acc s v).getD i 0 = v.getD (i - s) 0 := by
  unfold setRange
  rw [List.getD_append _ _ _ _ (by simp [List.length_append, List.length_take]; omega),
    List.getD_append_right _ _ _ _ (by simp [List.length_take]; omega)]
  congr 1
  simp only [List.length_take]
  omega

lemma setRange_getD_ge {acc v : List ℝ} {s i : ℕ} (hs : s ≤ acc.length)
    (hi : s + v.length ≤ i) :
    (setRange acc s v).getD i 0 = acc.getD i 0 := by
  unfold setRange
  rw [List.getD_append_right _ _ _ _
    (by simp [List.length_append, List.length_take]; omega)]
  rw [getD_drop]
  congr 1
  simp only [List.length_append, List.length_take]
  omega

lemma extract_length {xs : List ℝ} (s e : ℕ) (he : e ≤ xs.length) :
    (extract xs s e).length = e - s := by
  unfold extract
  simp only [List.length_drop, List.length_take]
  omega

lemma extract_getD {xs : List ℝ} {s e j : ℕ} (he : e ≤ xs.length) (hj : j < e - s) :
    (extract xs s e).getD j 0 = xs.getD (s + j) 0 := by
  unfold extract
  rw [getD_drop]
  exact getD_take (by omega) (by omega)

lemma extract_pos {xs : List ℝ} {s e : ℕ} (he : e ≤ xs.length)
    (hpos : ∀ i, s ≤ i → i < e → 0 < xs.getD i 0) :
    ∀ x ∈ extract xs s e, 0 < x := by
  intro x hx
  obtain ⟨j, hj, rfl⟩ := List.mem_iff_getElem.mp hx
  have hjl : j < e - s := by
    have := hj
    rwa [extract_length s e he] at this
  rw [← List.getD_eq_getElem _ 0 hj, extract_getD he hjl]
  exact hpos (s + j) (by omega) (by omega)

/-! Section: Smoother invariant: for an odd kernel the smoothing loop succeeds,
preserves length, and each output frame is either the unchanged input frame
or a positive replacement of a positive frame. -/

lemma smoothSegsE_invariant {k h : ℕ} (hk : k = 2 * h + 1) (orig : List ℝ) :
    ∀ (segs : List (ℕ × ℕ)) (acc : List ℝ),
      (∀ se ∈ segs, se.1 < se.2 ∧ se.2 ≤ orig.length ∧
        (∀ i, se.1 ≤ i → i < se.2 → 0 < orig.getD i 0)) →
      acc.length = orig.length →
      (∀ i, acc.getD i 0 = orig.getD i 0 ∨ (0 < orig.getD i 0 ∧ 0 < acc.getD i 0)) →
      ∃ out, smoothSegsE k orig segs acc = some out ∧ out.length = orig.length ∧
        (∀ i, out.getD i 0 = orig.getD i 0 ∨ (0 < orig.getD i 0 ∧ 0 < out.getD i 0)) := by
  intro segs
  induction segs with
  | nil =>
    intro acc _ hlen hpt
    exact ⟨acc, rfl, hlen, hpt⟩
  | cons se rest ih =>
    intro acc hsegs hlen hpt
    obtain ⟨s, e⟩ := se
    obtain ⟨h12, h2b, hint⟩ := hsegs (s, e) (List.mem_cons_self _ _)
    have hrest : ∀ se ∈ rest, se.1 < se.2 ∧ se.2 ≤ orig.length ∧
        (∀ i, se.1 ≤ i → i < se.2 → 0 < orig.getD i 0) :=
      fun se hse => hsegs se (List.mem_cons_of_mem _ hse)
    by_cases hfilt : k < e - s
    · have hmf : medfiltE k (extract orig s e) =
          some (medfiltPad k (extract orig s e)) := by
        unfold medfiltE
        rw [if_pos (by omega)]
      have hvlen : (medfiltPad k (extract orig s e)).length = e - s := by
        rw [medfiltPad_length, extract_length s e h2b]
      have hsle : s ≤ acc.length := by omega
      have hmpos : ∀ j, j < e - s → 0 < (medfiltPad k (extract orig s e)).getD j 0 := by
        intro j hj
        apply medfiltPad_pos hk (extract orig s e)
          (by rw [extract_length s e h2b]; omega)
          (extract_pos h2b hint)
        rw [extract_length s e h2b]
        omega
      have hstep : smoothSegsE k orig ((s, e) :: rest) acc =
          smoothSegsE k orig rest (setRange acc s (medfiltPad k (extract orig s e))) := by
        simp only [smoothSegsE]
        rw [if_pos hfilt, hmf]
      rw [hstep]
      apply ih
      · exact hrest
      · rw [setRange_length (by omega), hlen]
      · intro i
        by_cases hi1 : i < s
        · rw [setRange_getD_lt hsle hi1]
          exact hpt i
        · by_cases hi2 : i < e
          · rw [setRange_getD_mid hsle (by omega) (by rw [hvlen]; omega)]
            right
            exact ⟨hint i (by omega) hi2, hmpos (i - s) (by omega)⟩
          · rw [setRange_getD_ge hsle (by rw [hvlen]; omega)]
            exact hpt i
    · have hstep : smoothSegsE k orig ((s, e) :: rest) acc =
          smoothSegsE k orig rest acc := by
        simp only [smoothSegsE]
        rw [if_neg hfilt]
      rw [hstep]
      exact ih acc hrest hlen hpt

/-- For an odd kernel the whole smoothing stage succeeds and relates each
output frame to the corresponding input frame. -/
lemma smoothStage_spec {k h : ℕ} (hk : k = 2 * h + 1) (ys : List ℝ) :
    ∃ out, smoothStage k ys = some out ∧ out.length = ys.length ∧
      (∀ i, out.getD i 0 = ys.getD i 0 ∨ (0 < ys.getD i 0 ∧ 0 < out.getD i 0)) := by
  unfold smoothStage
  by_cases hany : ys.any (fun x => decide (0 < x)) = true
  · rw [if_pos hany]
    obtain ⟨hmem, _, _, _⟩ :=
      findSegmentsAux_spec ys 0 none (fun s₀ h => Option.noConfusion h)
    apply smoothSegsE_invariant hk ys (findSegments ys) ys ?_ rfl (fun i => Or.inl rfl)
    intro se hse
    obtain ⟨⟨h12, _, h2b, hint, _⟩, _⟩ := hmem se hse
    refine ⟨h12, by simpa using h2b, ?_⟩
    intro i h1 h2
    simpa using hint i h1 h2 (Nat.zero_le i)
  · rw [if_neg hany]
    exact ⟨ys, rfl, rfl, fun i => Or.inl rfl⟩

/-! Section: Segments of a constant positive array -/

lemma findSegmentsAux_replicate_pos {c : ℝ} (hc : 0 < c) :
    ∀ (m n s : ℕ), findSegmentsAux (List.replicate m c) n (some s) = [(s, n + m)] := by
  intro m
  induction m with
  | zero =>
    intro n s
    simp [findSegmentsAux]
  | succ m ih =>
    intro n s
    rw [List.replicate_succ]
    simp only [findSegmentsAux, if_pos hc]
    rw [ih (n + 1) s]
    congr 2
    omega

lemma findSegments_replicate {c : ℝ} (hc : 0 < c) {L : ℕ} (hL : 0 < L) :
    findSegments (List.replicate L c) = [(0, L)] := by
  obtain ⟨m, rfl⟩ : ∃ m, L = m + 1 := ⟨L - 1, by omega⟩
  unfold findSegments
  rw [List.replicate_succ]
  simp only [findSegmentsAux, if_pos hc]
  rw [findSegmentsAux_replicate_pos hc m 1 0]
  congr 2
  omega

/-! Section: C9: smoother idempotence on constant segments -/

/-- C9: A segment whose pitch values all equal one positive constant `c`
is left unchanged by the segment-aware smoother (odd `medianFilterSize`,
`medfilt` zero-padding convention), and applying the smoother a second time
to the already-smoothed segment again returns it unchanged. -/
theorem smoother_idempotent_on_constant (k h L : ℕ) (c : ℝ)
    (hk : k = 2 * h + 1) (hc : 0 < c) :
    smoothStage k (List.replicate L c) = some (List.replicate L c) ∧
    (smoothStage k (List.replicate L c)).bind (smoothStage k) =
      some (List.replicate L c) := by
  have hmain : smoothStage k (List.replicate L c) = some (List.replicate L c) := by
    unfold smoothStage
    rcases Nat.eq_zero_or_pos L with rfl | hL
    · simp
    · have hany : (List.replicate L c).any (fun x => decide (0 < x)) = true :=
        List.any_eq_true.mpr ⟨c, List.mem_replicate.mpr ⟨by omega, rfl⟩, by simpa using hc⟩
      rw [if_pos hany, findSegments_replicate hc hL]
      have hex : extract (List.replicate L c) 0 L = List.replicate L c := by
        unfold extract
        rw [List.drop_zero, List.take_of_length_le (by simp)]
      by_cases hfilt : k < L - 0
      · simp only [smoothSegsE]
        rw [if_pos hfilt]
        have hmf : medfiltE k (extract (List.replicate L c) 0 L) =
            some (medfiltPad k (extract (List.replicate L c) 0 L)) := by
          unfold medfiltE
          rw [if_pos (by omega)]
        rw [hmf, hex, medfiltPad_const hk hc (by omega)]
        show some (setRange (List.replicate L c) 0 (List.replicate L c)) =
          some (List.replicate L c)
        have hset : setRange (List.replicate L c) 0 (List.replicate L c) =
            List.replicate L c := by
          unfold setRange
          simp
        rw [hset]
      · simp only [smoothSegsE]
        rw [if_neg hfilt]
  exact ⟨hmain, by rw [hmain, Option.some_bind]; exact hmain⟩

/-- Witness for C9: a constant 220 Hz segment of length 5 with filter size 3. -/
theorem smoother_idempotent_on_constant_witness :
    (3 : ℕ) = 2 * 1 + 1 ∧ (0 : ℝ) < 220 ∧
    smoothStage 3 (List.replicate 5 (220 : ℝ)) = some (List.replicate 5 (220 : ℝ)) := by
  refine ⟨rfl, by norm_num, ?_⟩
  exact (smoother_idempotent_on_constant 3 1 5 220 rfl (by norm_num)).1

/-! Section: C10: voicing-mask invariance -/

/-- C10: Once the confidence gate fixes which frames are zero, neither
the octave corrector nor the segment-aware smoother (odd window) changes
that set: the final pitch array is zero exactly where the thresholded pitch
array was zero. -/
theorem voicing_mask_invariance (thr tol cost : ℝ) (f0 conf : List ℝ) (k h : ℕ)
    (hk : k = 2 * h + 1) :
    ∃ out,
      smoothStage k (octaveCorrect tol cost (threshList thr f0 conf) conf) = some out ∧
      ∀ i, (out.getD i 0 = 0 ↔ (threshList thr f0 conf).getD i 0 = 0) := by
  have hlen : (threshList thr f0 conf).length ≤ conf.length := by
    rw [threshList_length]
    exact min_le_right _ _
  obtain ⟨out, hout, _, hpt⟩ :=
    smoothStage_spec hk (octaveCorrect tol cost (threshList thr f0 conf) conf)
  refine ⟨out, hout, ?_⟩
  intro i
  have hcorr := octaveCorrect_pointwise tol cost (threshList thr f0 conf) conf hlen i
  have hsm := hpt i
  constructor
  · intro h0
    rcases hsm with he | ⟨_, hop⟩
    · rcases hcorr with he2 | ⟨htp, hyp⟩
      · rw [← he2, ← he]
        exact h0
      · rw [he] at h0
        rw [h0] at hyp
        exact absurd hyp (lt_irrefl 0)
    · rw [h0] at hop
      exact absurd hop (lt_irrefl 0)
  · intro h0
    rcases hcorr with he2 | ⟨htp, _⟩
    · rcases hsm with he | ⟨hyp, _⟩
      · rw [he, he2]
        exact h0
      · rw [he2, h0] at hyp
        exact absurd hyp (lt_irrefl 0)
    · rw [h0] at htp
      exact absurd htp (lt_irrefl 0)

/-- Witness for C10: one voiced and one unvoiced frame, filter size 3. -/
theorem voicing_mask_invariance_witness :
    (3 : ℕ) = 2 * 1 + 1 ∧
    ∃ out,
      smoothStage 3 (octaveCorrect 0.2 0.9 (threshList 0.05 [440, 0] [0.9, 0.9])
        [0.9, 0.9]) = some out ∧
      ∀ i, (out.getD i 0 = 0 ↔ (threshList 0.05 [440, 0] [0.9, 0.9]).getD i 0 = 0) :=
  ⟨rfl, voicing_mask_invariance 0.05 0.2 0.9 [440, 0] [0.9, 0.9] 3 1 rfl⟩

/-! Section: C6: even `medianFilterSize` handling

The pipeline itself (`detect_vocal_pitch` and `VocalProcessingThread.run`)
passes `median_filter_size` to `scipy.signal.medfilt` unchanged; it is the
GUI caller `update_settings` that increments an even value.  Invoking the
smoothing stage with an even size on a segment longer than the size
therefore fails (`medfilt` rejects even kernels) instead of behaving like
size + 1. -/

/-- Counterexample to C6 as stated: on a constant 100 Hz array of 11 frames,
the smoothing stage with the even size 10 raises (returns `none`: `medfilt`
rejects the even kernel), while size 11 completes — so processing with an
even `medianFilterSize` neither completes nor behaves like
`medianFilterSize + 1`. -/
theorem even_filter_counterexample :
    smoothStage 10 (List.replicate 11 (100 : ℝ)) = none ∧
    smoothStage 11 (List.replicate 11 (100 : ℝ)) =
      some (List.replicate 11 (100 : ℝ)) := by
  have hany : (List.replicate 11 (100 : ℝ)).any (fun x => decide (0 < x)) = true :=
    List.any_eq_true.mpr ⟨100, List.mem_replicate.mpr ⟨by norm_num, rfl⟩, by norm_num⟩
  constructor
  · unfold smoothStage
    rw [if_pos hany, findSegments_replicate (by norm_num) (by norm_num)]
    simp only [smoothSegsE]
    rw [if_pos (by norm_num : 10 < 11 - 0)]
    have hmf : medfiltE 10 (extract (List.replicate 11 (100 : ℝ)) 0 11) = none := by
      unfold medfiltE
      norm_num
    rw [hmf]
  · unfold smoothStage
    rw [if_pos hany, findSegments_replicate (by norm_num) (by norm_num)]
    simp only [smoothSegsE]
    rw [if_neg (by norm_num : ¬ 11 < 11 - 0)]

/-- C6 (amended): The even-size auto-correction lives in the GUI caller
`update_settings`, not in the pipeline: the caller increments an even
`medianFilterSize` to the next odd number before constructing the
processing thread, and with the coerced (odd) size the smoothing stage
always completes. -/
theorem even_filter_caller_coercion (n : ℕ) (hn : n % 2 = 0) :
    coerceMedianFilterSize n = n + 1 ∧ coerceMedianFilterSize n % 2 = 1 ∧
    ∀ xs : List ℝ, ∃ out, smoothStage (coerceMedianFilterSize n) xs = some out := by
  have hc : coerceMedianFilterSize n = n + 1 := by
    unfold coerceMedianFilterSize
    rw [if_pos hn]
  refine ⟨hc, by omega, ?_⟩
  intro xs
  obtain ⟨out, hout, _, _⟩ :=
    smoothStage_spec (show coerceMedianFilterSize n = 2 * (n / 2) + 1 by omega) xs
  exact ⟨out, hout⟩

/-- Witness for the amended C6 at `n = 10`. -/
theorem even_filter_caller_coercion_witness :
    (10 : ℕ) % 2 = 0 ∧ coerceMedianFilterSize 10 = 11 ∧
    ∃ out, smoothStage (coerceMedianFilterSize 10) (List.replicate 11 (100 : ℝ)) =
      some out :=
  ⟨rfl, (even_filter_caller_coercion 10 rfl).1,
    (even_filter_caller_coercion 10 rfl).2.2 (List.replicate 11 (100 : ℝ))⟩

/-! Section: C8: silent-input safety -/

lemma rmsAt_zero {y : List ℝ} (hy : ∀ x ∈ y, x = 0) (hop i : ℕ) :
    rmsAt y hop i = 0 := by
  unfold rmsAt
  have hsum : (((y.drop (i * hop)).take (2 * hop)).map (fun s => s ^ 2)).sum = 0 := by
    apply List.sum_eq_zero
    intro x hx
    obtain ⟨a, ha, rfl⟩ := List.mem_map.mp hx
    rw [hy a (List.drop_subset _ _ (List.take_subset _ _ ha))]
    ring
  rw [hsum, zero_div, Real.sqrt_zero]

lemma rmsFrames_zero {y : List ℝ} (hy : ∀ x ∈ y, x = 0) (hop : ℕ) :
    rmsFrames y hop = List.replicate (y.length / hop + 1) 0 := by
  apply List.eq_replicate.mpr
  constructor
  · unfold rmsFrames
    simp
  · intro b hb
    unfold rmsFrames at hb
    obtain ⟨i, _, rfl⟩ := List.mem_map.mp hb
    exact rmsAt_zero hy hop i

lemma foldr_max_zero {l : List ℝ} (h : ∀ x ∈ l, x = 0) : l.foldr max 0 = 0 := by
  induction l with
  | nil => rfl
  | cons a l ih =>
    simp only [List.foldr_cons]
    rw [h a (List.mem_cons_self _ _), ih (fun x hx => h x (List.mem_cons_of_mem _ hx))]
    simp

lemma confList_zero_of_unvoiced :
    ∀ (vfs : List Bool) (fs ps es : List ℝ), (∀ b ∈ vfs, b = false) →
      ∀ i, (confList vfs fs ps es).getD i 0 = 0 := by
  intro vfs
  induction vfs with
  | nil =>
    intro fs ps es _ i
    simp [confList]
  | cons vf vfs ih =>
    intro fs ps es hv i
    match fs, ps, es with
    | [], _, _ => simp [confList]
    | _ :: _, [], _ => simp [confList]
    | _ :: _, _ :: _, [] => simp [confList]
    | f :: fs', p :: ps', e :: es' =>
      have hvf : vf = false := hv vf (List.mem_cons_self _ _)
      cases i with
      | zero =>
        simp [confList, confidenceAt, hvf]
      | succ j =>
        simpa [confList] using
          ih fs' ps' es' (fun b hb => hv b (List.mem_cons_of_mem _ hb)) j

/-- C8: For an all-silent waveform every frame's RMS energy is 0; since
the maximum energy is 0, the normalization division is skipped and the
energy array is left all-zero (no division by zero); and — the estimator
marking every frame of silence as unvoiced, with a nonnegative energy
threshold — the pipeline returns the valid degenerate result with
`pitch[i] = 0` and `confidence[i] = 0` for every frame. -/
theorem silent_input_safety (y f0 probs : List ℝ) (voiced : List Bool)
    (hop k : ℕ) (thr tol cost : ℝ)
    (hy : ∀ x ∈ y, x = 0) (hv : ∀ b ∈ voiced, b = false) (hthr : 0 ≤ thr) :
    rmsFrames y hop = List.replicate (y.length / hop + 1) 0 ∧
    (rmsFrames y hop).foldr max 0 = 0 ∧
    normalizeEnergy (rmsFrames y hop) = rmsFrames y hop ∧
    ∃ pl cl,
      postProcess thr tol cost k f0 voiced probs
        (normalizeEnergy (rmsFrames y hop)) = some (pl, cl) ∧
      (∀ i, pl.getD i 0 = 0) ∧ (∀ i, cl.getD i 0 = 0) := by
  have hrms : rmsFrames y hop = List.replicate (y.length / hop + 1) 0 :=
    rmsFrames_zero hy hop
  have hmax : (rmsFrames y hop).foldr max 0 = 0 := by
    apply foldr_max_zero
    intro x hx
    rw [hrms] at hx
    exact List.eq_of_mem_replicate hx
  have hnorm : normalizeEnergy (rmsFrames y hop) = rmsFrames y hop := by
    unfold normalizeEnergy
    rw [if_neg (by rw [hmax]; exact lt_irrefl 0)]
  refine ⟨hrms, hmax, hnorm, ?_⟩
  set energy := normalizeEnergy (rmsFrames y hop)
  have hconf : ∀ i, (confList voiced f0 probs energy).getD i 0 = 0 :=
    confList_zero_of_unvoiced voiced f0 probs energy hv
  have htp : ∀ i, (threshList thr f0 (confList voiced f0 probs energy)).getD i 0 = 0 := by
    intro i
    rcases threshList_getD_cases thr f0 (confList voiced f0 probs energy) i with
      h0 | ⟨hgt, _, _⟩
    · exact h0
    · rw [hconf i] at hgt
      linarith
  have hys : ∀ i,
      (octaveCorrect tol cost (threshList thr f0 (confList voiced f0 probs energy))
        (confList voiced f0 probs energy)).getD i 0 = 0 := by
    intro i
    have hlen : (threshList thr f0 (confList voiced f0 probs energy)).length ≤
        (confList voiced f0 probs energy).length := by
      rw [threshList_length]
      exact min_le_right _ _
    rcases octaveCorrect_pointwise tol cost _ _ hlen i with he | ⟨hpos, _⟩
    · rw [he]
      exact htp i
    · rw [htp i] at hpos
      exact absurd hpos (lt_irrefl 0)
  have hsm : smoothStage k
      (octaveCorrect tol cost (threshList thr f0 (confList voiced f0 probs energy))
        (confList voiced f0 probs energy)) =
      some (octaveCorrect tol cost (threshList thr f0 (confList voiced f0 probs energy))
        (confList voiced f0 probs energy)) := by
    unfold smoothStage
    rw [if_neg ?hneg]
    case hneg =>
      rw [List.any_eq_true]
      rintro ⟨x, hx, hpx⟩
      obtain ⟨j, hj, rfl⟩ := List.mem_iff_getElem.mp hx
      have := hys j
      rw [List.getD_eq_getElem _ 0 hj] at this
      rw [this] at hpx
      simp at hpx
  refine ⟨_, _, ?_, hys, hconf⟩
  show (smoothStage k
      (octaveCorrect tol cost (threshList thr f0 (confList voiced f0 probs energy))
        (confList voiced f0 probs energy))).map
      (fun sp => (sp, confList voiced f0 probs energy)) = _
  rw [hsm, Option.map_some']

/-- Witness for C8: four samples of digital silence, estimator reporting
every frame unvoiced, default threshold 0.05. -/
theorem silent_input_safety_witness :
    (∀ x ∈ [(0 : ℝ), 0, 0, 0], x = 0) ∧ (∀ b ∈ [false, false], b = false) ∧
    (0 : ℝ) ≤ 0.05 ∧
    rmsFrames [(0 : ℝ), 0, 0, 0] 2 =
      List.replicate ([(0 : ℝ), 0, 0, 0].length / 2 + 1) 0 ∧
    normalizeEnergy (rmsFrames [(0 : ℝ), 0, 0, 0] 2) = rmsFrames [(0 : ℝ), 0, 0, 0] 2 ∧
    ∃ pl cl,
      postProcess 0.05 0.2 0.9 11 [100, 200] [false, false] [0.9, 0.9]
        (normalizeEnergy (rmsFrames [(0 : ℝ), 0, 0, 0] 2)) = some (pl, cl) ∧
      (∀ i, pl.getD i 0 = 0) ∧ (∀ i, cl.getD i 0 = 0) := by
  have hy : ∀ x ∈ [(0 : ℝ), 0, 0, 0], x = 0 := by
    intro x hx
    simpa using hx
  have hv : ∀ b ∈ [false, false], b = false := by
    intro b hb
    simpa using hb
  have h := silent_input_safety [(0 : ℝ), 0, 0, 0] [100, 200] [0.9, 0.9]
    [false, false] 2 11 0.05 0.2 0.9 hy hv (by norm_num)
  exact ⟨hy, hv, by norm_num, h.1, h.2.2.1, h.2.2.2⟩

end PitchTrack
